import Mathlib

/-!
Verification of the incremental stream decoder / response assembler in
`src/components/Chat.tsx` (function `sendMessage` and its helpers
`stopSmoothStream`, `startSmoothStream`).

The embedding works at the level of decoded text chunks (the TS code decodes
bytes with `TextDecoder`; we model chunks as already-decoded strings, so a
"chunking" here is a split of the full response text into string pieces).
`JSON.parse` is modelled by an executable recursive-descent parser over the
JSON grammar; numbers keep their source lexeme since no numeric value is ever
used by the component.  The `setInterval`-based reveal ticker is modelled by
an `intervalActive` flag: while active the pending-character queue eventually
drains into the accumulated content, and `stopSmoothStream` flushes it
atomically, exactly as in the source.  `setTimeout` finalization callbacks are
modelled as firing after the synchronous processing of the stream (the
single-threaded event loop runs them once the handler yields).  The dead
variables `isJsonArray` / `firstChunk` of the source (computed at
Chat.tsx:257-276 but never read afterwards) have no observable effect and are
noted here rather than carried in the state.
-/

namespace Kelsenia

/-- JSON values as produced by `JSON.parse`; numbers keep their source lexeme
(the component never uses a numeric value). -/
inductive Json where
  | null
  | bool (b : Bool)
  | num (raw : String)
  | str (s : String)
  | arr (elems : List Json)
  | obj (fields : List (String × Json))

/-- Whitespace for the JS `String.prototype.trim` (ASCII part). -/
def isWsChar (c : Char) : Bool :=
  c = ' ' || c = '\t' || c = '\n' || c = '\r' || c = '\x0b' || c = '\x0c'

/-- Whitespace admitted by the JSON grammar. -/
def jsonWs (c : Char) : Bool :=
  c = ' ' || c = '\t' || c = '\n' || c = '\r'

def skipWs : List Char → List Char
  | [] => []
  | c :: rest => if jsonWs c then skipWs rest else c :: rest

/-- Model of `s.trim()`. -/
def jsTrim (s : String) : String :=
  String.mk (((s.data.dropWhile isWsChar).reverse.dropWhile isWsChar).reverse)

/-- Does the pattern occur at the head of the character list? -/
def leadsWith : List Char → List Char → Bool
  | [], _ => true
  | _ :: _, [] => false
  | p :: ps, c :: cs => p = c && leadsWith ps cs

/-- First index at which the pattern occurs, if any (model of `indexOf`). -/
def idxOf (pat : List Char) : List Char → Option Nat
  | [] => if leadsWith pat [] then some 0 else none
  | c :: rest =>
    if leadsWith pat (c :: rest) then some 0
    else (idxOf pat rest).map (· + 1)

/-- Model of `s.includes(pat)`. -/
def hasSub (s pat : String) : Bool := (idxOf pat.data s.data).isSome

/-- Model of `s.indexOf(pat)`; only used under an inclusion guard in the
source, so the default for the absent case is irrelevant. -/
def idxOfD (s pat : String) : Nat := (idxOf pat.data s.data).getD 0

/-- Model of `s.substring(a, b)`: JS swaps the endpoints when out of order
and clamps to the string length. -/
def jsSubstring (s : String) (a b : Nat) : String :=
  let lo := min a b
  let hi := max a b
  String.mk ((s.data.drop lo).take (hi - lo))

def hexVal (c : Char) : Option Nat :=
  if '0' ≤ c ∧ c ≤ '9' then some (c.toNat - 48)
  else if 'a' ≤ c ∧ c ≤ 'f' then some (c.toNat - 87)
  else if 'A' ≤ c ∧ c ≤ 'F' then some (c.toNat - 55)
  else none

/-- Body of a JSON string literal, after the opening quote.  Returns the
decoded characters and the remainder after the closing quote. -/
def parseStrAux : Nat → List Char → Option (List Char × List Char)
  | 0, _ => none
  | _ + 1, [] => none
  | fuel + 1, c :: rest =>
    if c = '"' then some ([], rest)
    else if c = '\\' then
      match rest with
      | [] => none
      | e :: rest2 =>
        if e = '"' then (parseStrAux fuel rest2).map (fun p => ('"' :: p.1, p.2))
        else if e = '\\' then (parseStrAux fuel rest2).map (fun p => ('\\' :: p.1, p.2))
        else if e = '/' then (parseStrAux fuel rest2).map (fun p => ('/' :: p.1, p.2))
        else if e = 'b' then (parseStrAux fuel rest2).map (fun p => ('\x08' :: p.1, p.2))
        else if e = 'f' then (parseStrAux fuel rest2).map (fun p => ('\x0c' :: p.1, p.2))
        else if e = 'n' then (parseStrAux fuel rest2).map (fun p => ('\n' :: p.1, p.2))
        else if e = 'r' then (parseStrAux fuel rest2).map (fun p => ('\r' :: p.1, p.2))
        else if e = 't' then (parseStrAux fuel rest2).map (fun p => ('\t' :: p.1, p.2))
        else if e = 'u' then
          match rest2 with
          | h1 :: h2 :: h3 :: h4 :: rest3 =>
            match hexVal h1, hexVal h2, hexVal h3, hexVal h4 with
            | some x, some y, some z, some w =>
              (parseStrAux fuel rest3).map
                (fun p => (Char.ofNat (((x * 16 + y) * 16 + z) * 16 + w) :: p.1, p.2))
            | _, _, _, _ => none
          | _ => none
        else none
    else if c.toNat < 32 then none
    else (parseStrAux fuel rest).map (fun p => (c :: p.1, p.2))

def takeDigits : List Char → List Char × List Char
  | [] => ([], [])
  | c :: rest =>
    if c.isDigit then
      let p := takeDigits rest
      (c :: p.1, p.2)
    else ([], c :: rest)

def parseIntPart : List Char → Option (List Char × List Char)
  | [] => none
  | c :: rest =>
    if c = '0' then some (['0'], rest)
    else if c.isDigit then
      let p := takeDigits rest
      some (c :: p.1, p.2)
    else none

def parseFracPart (cs : List Char) : Option (List Char × List Char) :=
  match cs with
  | '.' :: rest =>
    match takeDigits rest with
    | ([], _) => none
    | (ds, r) => some ('.' :: ds, r)
  | _ => some ([], cs)

def parseExpPart (cs : List Char) : Option (List Char × List Char) :=
  match cs with
  | c :: rest =>
    if c = 'e' ∨ c = 'E' then
      let p : List Char × List Char :=
        match rest with
        | '+' :: r => (['+'], r)
        | '-' :: r => (['-'], r)
        | r => ([], r)
      match takeDigits p.2 with
      | ([], _) => none
      | (ds, r) => some (c :: (p.1 ++ ds), r)
    else some ([], cs)
  | [] => some ([], [])

/-- A JSON number lexeme, following the grammar `-? int frac? exp?`. -/
def parseNum (cs : List Char) : Option (String × List Char) :=
  let p : List Char × List Char :=
    match cs with
    | '-' :: r => (['-'], r)
    | r => ([], r)
  match parseIntPart p.2 with
  | none => none
  | some (ip, r1) =>
    match parseFracPart r1 with
    | none => none
    | some (fp, r2) =>
      match parseExpPart r2 with
      | none => none
      | some (ep, r3) => some (String.mk (p.1 ++ ip ++ fp ++ ep), r3)

/-- A JSON number denotes zero iff its mantissa has no nonzero digit. -/
def isZeroLexeme (raw : String) : Bool :=
  (raw.data.takeWhile (fun c => !(c = 'e' || c = 'E'))).all
    (fun c => c = '-' || c = '0' || c = '.')

mutual

def parseVal : Nat → List Char → Option (Json × List Char)
  | 0, _ => none
  | fuel + 1, cs =>
    match skipWs cs with
    | [] => none
    | c :: rest =>
      if c = '\x7b' then parseObjAfterBrace fuel rest
      else if c = '[' then parseArrAfterBracket fuel rest
      else if c = '"' then
        match parseStrAux (rest.length + 1) rest with
        | some (l, r) => some (.str (String.mk l), r)
        | none => none
      else if c = 't' then
        match rest with
        | 'r' :: 'u' :: 'e' :: r => some (.bool true, r)
        | _ => none
      else if c = 'f' then
        match rest with
        | 'a' :: 'l' :: 's' :: 'e' :: r => some (.bool false, r)
        | _ => none
      else if c = 'n' then
        match rest with
        | 'u' :: 'l' :: 'l' :: r => some (.null, r)
        | _ => none
      else if c = '-' || c.isDigit then
        match parseNum (c :: rest) with
        | some (s, r) => some (.num s, r)
        | none => none
      else none

def parseArrAfterBracket : Nat → List Char → Option (Json × List Char)
  | 0, _ => none
  | fuel + 1, cs =>
    match skipWs cs with
    | ']' :: r => some (.arr [], r)
    | cs2 => parseArrItems fuel cs2 []

def parseArrItems : Nat → List Char → List Json → Option (Json × List Char)
  | 0, _, _ => none
  | fuel + 1, cs, acc =>
    match parseVal fuel cs with
    | none => none
    | some (v, r) =>
      match skipWs r with
      | ',' :: r2 => parseArrItems fuel r2 (acc ++ [v])
      | ']' :: r2 => some (.arr (acc ++ [v]), r2)
      | _ => none

def parseObjAfterBrace : Nat → List Char → Option (Json × List Char)
  | 0, _ => none
  | fuel + 1, cs =>
    match skipWs cs with
    | [] => none
    | c :: r =>
      if c = '\x7d' then some (.obj [], r)
      else parseObjFields fuel (c :: r) []

def parseObjFields : Nat → List Char → List (String × Json) → Option (Json × List Char)
  | 0, _, _ => none
  | fuel + 1, cs, acc =>
    match skipWs cs with
    | '"' :: r =>
      match parseStrAux (r.length + 1) r with
      | none => none
      | some (k, r1) =>
        match skipWs r1 with
        | ':' :: r2 =>
          match parseVal fuel r2 with
          | none => none
          | some (v, r3) =>
            match skipWs r3 with
            | [] => none
            | c :: r4 =>
              if c = ',' then parseObjFields fuel r4 (acc ++ [(String.mk k, v)])
              else if c = '\x7d' then some (.obj (acc ++ [(String.mk k, v)]), r4)
              else none
        | _ => none
    | _ => none

end

/-- Model of `JSON.parse`: parse one value, demand only whitespace after it.
The fuel is linear in the input and large enough for every input, since each
cycle in the parser call graph consumes at least one character. -/
def parseJson (s : String) : Option Json :=
  match parseVal (4 * s.data.length + 16) s.data with
  | some (v, rest) => if skipWs rest = [] then some v else none
  | none => none

/-- Property lookup on a parsed object; `JSON.parse` lets a later duplicate
key overwrite an earlier one. -/
def getF : List (String × Json) → String → Option Json
  | [], _ => none
  | (k, v) :: rest, key =>
    match getF rest key with
    | some r => some r
    | none => if k = key then some v else none

def Json.getField : Json → String → Option Json
  | .obj fs, key => getF fs key
  | _, _ => none

/-- JS truthiness of a JSON value. -/
def jsTruthy : Json → Bool
  | .null => false
  | .bool b => b
  | .num raw => !isZeroLexeme raw
  | .str s => !(s = "")
  | .arr _ => true
  | .obj _ => true

/-!  The per-reply assembler state.  Each field is one of the refs of
`Chat.tsx`: `currentContentRef`, `streamBufferRef`, the `setInterval` handle
of `startSmoothStream` (as a Boolean `intervalActive`), `isInResponseTagRef`,
`responseContentRef`, `hasSeenTagsRef`.  `endFinal` records the final text
captured by the `setTimeout` scheduled in the `<end>...</end>` branch
(Chat.tsx:327-338); the ref `finalContentRef` of the source is initialised to
the empty string and never written again, so it is not part of the state and
the guard at Chat.tsx:441 always passes.  `returned` records that the
`return` of the `end`-kind branch (Chat.tsx:384) has executed. -/

structure Core where
  currentContent : String
  streamBuffer : List Char
  intervalActive : Bool
  inResponseTag : Bool
  responseContent : String
  hasSeenTags : Bool
  endFinal : Option String
  returned : Bool
deriving DecidableEq

def initCore : Core :=
  { currentContent := "", streamBuffer := [], intervalActive := true,
    inResponseTag := false, responseContent := "", hasSeenTags := false,
    endFinal := none, returned := false }

/-- `stopSmoothStream` (Chat.tsx:149-159): clear the interval and flush the
remaining queued characters into the accumulated content. -/
def stopSmoothStream (c : Core) : Core :=
  { c with intervalActive := false,
           currentContent := c.currentContent ++ String.mk c.streamBuffer,
           streamBuffer := [] }

/-- Control signal of one line of the stream: fall through to the next line,
`break` out of the per-chunk line loop (the `<end>` terminator branch,
Chat.tsx:341), or `return` from `sendMessage` (the `end`-kind branch,
Chat.tsx:384). -/
inductive Signal where
  | next
  | brk
  | ret
deriving DecidableEq

/-- Effective content of an `item` record (Chat.tsx:293-303): the guard
`data.type === 'item' && data.content` requires a truthy content; a content
string which parses as JSON with a truthy `output` property is unwrapped one
level.  `none` means the line leaves the state unchanged: either the guard
fails, or the content in play is a truthy non-string value, in which case the
string methods applied to it later in the branch throw a `TypeError` before
any state mutation and the per-line `catch` (Chat.tsx:390) swallows it. -/
def effContent (data : Json) : Option String :=
  match data.getField "content" with
  | some (Json.str s) =>
    if s = "" then none
    else
      match parseJson s with
      | some p =>
        match p.getField "output" with
        | some v =>
          if jsTruthy v then
            match v with
            | Json.str o => some o
            | _ => none
          else some s
        | none => some s
      | none => some s
  | _ => none

/-- The tag-rule chain of the `item` branch (Chat.tsx:306-353). -/
def itemStep (c : Core) (content : String) : Core × Signal :=
  if content = "<response>" then
    ({ c with hasSeenTags := true, inResponseTag := true, responseContent := "" },
     Signal.next)
  else if content = "</response>" then
    ({ c with inResponseTag := false, responseContent := c.currentContent },
     Signal.next)
  else if hasSub content "<end>" && hasSub content "</end>" then
    let startIdx := idxOfD content "<end>" + 5
    let endIdx := idxOfD content "</end>"
    let fc := jsTrim (jsSubstring content startIdx endIdx)
    ({ stopSmoothStream c with endFinal := some fc }, Signal.brk)
  else if c.inResponseTag then
    ({ c with streamBuffer := c.streamBuffer ++ content.data }, Signal.next)
  else if !c.inResponseTag && c.hasSeenTags && !hasSub content "<" then
    (c, Signal.next)
  else if !c.hasSeenTags then
    ({ c with streamBuffer := c.streamBuffer ++ content.data }, Signal.next)
  else (c, Signal.next)

/-- Raw content of a record as used by the `final` / `replace` branch
(Chat.tsx:358), which assigns `data.content` without a string check; a
missing or non-string content is abstracted to the empty string, a corner no
claim depends on. -/
def contentStrD (data : Json) : String :=
  match data.getField "content" with
  | some (Json.str s) => s
  | _ => ""

/-- Processing of one complete line of the stream (Chat.tsx:286-393):
trim, skip if empty, `JSON.parse` inside `try` (a failure is logged and the
line dropped), then dispatch on `data.type`. -/
def procLine (c : Core) (line : String) : Core × Signal :=
  let t := jsTrim line
  if t = "" then (c, Signal.next)
  else
    match parseJson t with
    | none => (c, Signal.next)
    | some data =>
      match data.getField "type" with
      | some (Json.str ty) =>
        if ty = "item" then
          match effContent data with
          | some content => itemStep c content
          | none => (c, Signal.next)
        else if ty = "final" || ty = "replace" then
          ({ stopSmoothStream c with currentContent := contentStrD data },
           Signal.next)
        else if ty = "end" then
          if !c.hasSeenTags then (stopSmoothStream c, Signal.ret)
          else (c, Signal.next)
        else (c, Signal.next)
      | _ => (c, Signal.next)

/-- The per-chunk line loop (Chat.tsx:286): `brk` abandons the remaining
lines of this chunk only; `ret` exits `sendMessage` for good. -/
def feedLines (c : Core) : List String → Core
  | [] => c
  | l :: ls =>
    if c.returned then c
    else
      match procLine c l with
      | (c2, Signal.next) => feedLines c2 ls
      | (c2, Signal.brk) => c2
      | (c2, Signal.ret) => { c2 with returned := true }

/-- Split into newline-separated segments; the last segment is the part after
the final newline (possibly empty).  Mirrors `buffer.split('\n')`. -/
def consSeg (c : Char) : List (List Char) → List (List Char)
  | [] => [[c]]
  | h :: t => (c :: h) :: t

def splitNl : List Char → List (List Char)
  | [] => [[]]
  | c :: rest => if c = '\n' then [] :: splitNl rest else consSeg c (splitNl rest)

/-- Last element of a segment list (total; segment lists are nonempty). -/
def lastD : List (List Char) → List Char
  | [] => []
  | [x] => x
  | _ :: x :: xs => lastD (x :: xs)

def segStrs (xs : List (List Char)) : List String := xs.map String.mk

/-- Assembler state plus the carry-over line-reassembly buffer. -/
structure St where
  core : Core
  buffer : List Char

def initSt : St := ⟨initCore, []⟩

/-- One iteration of the chunk read loop (Chat.tsx:261-398): append the chunk
to the carry-over buffer, split on newlines, keep the trailing incomplete
segment, process the complete lines.  If the `end` branch already returned,
no further chunk is consumed. -/
def feedChunk (s : St) (chunk : String) : St :=
  if s.core.returned then s
  else
    let segs := splitNl (s.buffer ++ chunk.data)
    ⟨feedLines s.core (segStrs segs.dropLast), lastD segs⟩

/-- `item.json || item` on an element of the batch array (Chat.tsx:411). -/
def arrElemData (e : Json) : Json :=
  match e.getField "json" with
  | some v => if jsTruthy v then v else e
  | none => e

/-- The batch-array fallback loop (Chat.tsx:410-425).  A `null` element makes
the property access `item.json` throw; the `try` wrapping the whole loop
(Chat.tsx:403-437) then abandons the remaining elements.  An `item` element
with a truthy non-string content throws at `content.split` with the same
effect.  Note the loop applies no tag rules and no `output` unwrapping, and
has no case for kind `end`. -/
def processArray (c : Core) : List Json → Core
  | [] => c
  | e :: rest =>
    match e with
    | Json.null => c
    | _ =>
      let data := arrElemData e
      match data.getField "type" with
      | some (Json.str ty) =>
        if ty = "item" then
          match data.getField "content" with
          | some (Json.str s) =>
            if s = "" then processArray c rest
            else processArray { c with streamBuffer := c.streamBuffer ++ s.data } rest
          | some v => if jsTruthy v then c else processArray c rest
          | none => processArray c rest
        else if ty = "replace" || ty = "final" then
          processArray { stopSmoothStream c with currentContent := contentStrD data } rest
        else processArray c rest
      | _ => processArray c rest

/-- End-of-stream handling of the residual buffer (Chat.tsx:400-438): if it
trims to something starting with `[` it is parsed as a batch array, else as a
single object of which only kind `item` with truthy content has an effect
(verbatim, with no unwrapping and no tag rules). -/
def processResidual (c : Core) (buf : List Char) : Core :=
  let t := jsTrim (String.mk buf)
  if t = "" then c
  else
    match t.data with
    | '[' :: _ =>
      match parseJson t with
      | some (Json.arr items) => processArray c items
      | _ => c
    | _ =>
      match parseJson t with
      | some data =>
        match data.getField "type" with
        | some (Json.str ty) =>
          if ty = "item" then
            match data.getField "content" with
            | some (Json.str s) =>
              if s = "" then c
              else { c with streamBuffer := c.streamBuffer ++ s.data }
            | _ => c
          else c
        | _ => c
      | none => c

/-- Observable outcome of one reply: the final visible text, whether the
loading state is still set, and whether `sendMessage` is stuck in the
buffer-drain wait loop (Chat.tsx:442-444) with the reveal interval already
cleared and nothing draining the queue. -/
structure RunResult where
  visible : String
  isLoading : Bool
  hangs : Bool
deriving DecidableEq

/-- End of the stream (Chat.tsx:400-465).  If the `end`-kind branch returned,
its `setTimeout` has fixed the visible text to the accumulated content (or an
earlier terminator timeout overrides it with its captured final text) and
cleared the loading state.  Otherwise the residual buffer is processed; since
`finalContentRef` is never written, the wait loop always runs: if the queue is
nonempty while the interval is cleared, nothing drains it and the function
never reaches its completion code; else the queue drains into the content and
loading stops.  A pending `<end>` terminator timeout force-sets the visible
text in every case it was scheduled. -/
def finishTail (c : Core) : RunResult :=
  match c.endFinal with
  | some f =>
    { visible := f, isLoading := false,
      hangs := !c.streamBuffer.isEmpty && !c.intervalActive }
  | none =>
    if !c.streamBuffer.isEmpty && !c.intervalActive then
      { visible := c.currentContent, isLoading := true, hangs := true }
    else
      { visible := c.currentContent ++ String.mk c.streamBuffer,
        isLoading := false, hangs := false }

def finish (s : St) : RunResult :=
  if s.core.returned then
    { visible := s.core.endFinal.getD s.core.currentContent,
      isLoading := false, hangs := false }
  else finishTail (processResidual s.core s.buffer)

/-- Full processing of a reply stream delivered as the given chunks. -/
def runChunks (chunks : List String) : RunResult :=
  finish (chunks.foldl feedChunk initSt)

/-- Concatenation of a chunking back into the full response text. -/
def joinChunks (cs : List String) : List Char := (cs.map String.data).flatten

/-!  Transcript-level model of `sendMessage` (Chat.tsx:190-466) for the
error-path claim. -/

inductive Role where
  | user
  | assistant
  | error
deriving DecidableEq

structure MessageEntry where
  role : Role
  content : String
deriving DecidableEq

/-- The fixed system-error message (Chat.tsx:458). -/
def errorText : String := "Error connecting to server. Please try again."

structure SendResult where
  transcript : List MessageEntry
  isLoading : Bool
  hangs : Bool
deriving DecidableEq

/-- How one call of `sendMessage` can go: the fetch rejects, the response is
not ok (Chat.tsx:242), the body has no reader (Chat.tsx:247), or the body
streams the given chunks and then either ends or fails on the next read. -/
inductive FetchOutcome where
  | netError
  | httpError
  | noBody
  | stream (chunks : List String) (readFails : Bool)

/-- A failure of the request or stream that the handler observes: a read
failure after the `end` branch already returned never surfaces, since the
function has exited. -/
def isFailure : FetchOutcome → Bool
  | .netError => true
  | .httpError => true
  | .noBody => true
  | .stream chunks readFails =>
    readFails && !(chunks.foldl feedChunk initSt).core.returned

/-- Transcript-level result of `sendMessage`: the user message and the empty
assistant message are appended (Chat.tsx:203,216); on the catch path the last
entry is replaced by the fixed error message (Chat.tsx:454-461) and the
`finally` clears the loading state (Chat.tsx:462-465); otherwise the
assistant entry carries the final visible text. -/
def sendMessageModel (prev : List MessageEntry) (user : String)
    (o : FetchOutcome) : SendResult :=
  match o with
  | .stream chunks readFails =>
    let s := chunks.foldl feedChunk initSt
    if readFails && !s.core.returned then
      { transcript := prev ++ [⟨Role.user, user⟩, ⟨Role.error, errorText⟩],
        isLoading := false, hangs := false }
    else
      let r := finish s
      { transcript := prev ++ [⟨Role.user, user⟩, ⟨Role.assistant, r.visible⟩],
        isLoading := r.isLoading, hangs := r.hangs }
  | _ =>
    { transcript := prev ++ [⟨Role.user, user⟩, ⟨Role.error, errorText⟩],
      isLoading := false, hangs := false }

/-!  General lemmas about the drivers. -/

theorem parseJson_empty : parseJson "" = none := rfl

theorem feedLines_returned (c : Core) (h : c.returned = true) :
    ∀ ls : List String, feedLines c ls = c := by
  intro ls
  cases ls with
  | nil => rfl
  | cons l ls => simp [feedLines, h]

theorem procLine_parse_none (c : Core) (l : String)
    (hp : parseJson (jsTrim l) = none) : procLine c l = (c, Signal.next) := by
  unfold procLine
  by_cases h : jsTrim l = "" <;> simp [h, hp]

theorem finishTail_no_hang_not_loading (c : Core) :
    (finishTail c).hangs = false → (finishTail c).isLoading = false := by
  unfold finishTail
  split
  · intro _; rfl
  · split
    · simp
    · intro _; rfl

theorem finish_no_hang_not_loading (s : St) :
    (finish s).hangs = false → (finish s).isLoading = false := by
  unfold finish
  split
  · intro _; rfl
  · exact finishTail_no_hang_not_loading _

theorem sendMessageModel_stream (prev : List MessageEntry) (user : String)
    (chunks : List String) (readFails : Bool) :
    sendMessageModel prev user (FetchOutcome.stream chunks readFails)
      = (if (readFails && !(chunks.foldl feedChunk initSt).core.returned) = true then
          { transcript := prev ++ [⟨Role.user, user⟩, ⟨Role.error, errorText⟩],
            isLoading := false, hangs := false }
        else
          { transcript := prev ++ [⟨Role.user, user⟩,
              ⟨Role.assistant, (finish (chunks.foldl feedChunk initSt)).visible⟩],
            isLoading := (finish (chunks.foldl feedChunk initSt)).isLoading,
            hangs := (finish (chunks.foldl feedChunk initSt)).hangs }) := rfl

/-!  Line splitting: composition of `buffer.split('\n')` across chunk
boundaries. -/

theorem splitNl_ne_nil (s : List Char) : splitNl s ≠ [] := by
  induction s with
  | nil => simp [splitNl]
  | cons c rest ih =>
    unfold splitNl
    by_cases h : c = '\n'
    · simp [h]
    · simp only [h, if_false]
      cases hr : splitNl rest with
      | nil => simp [consSeg]
      | cons x xs => simp [consSeg]

theorem lastD_cons_cons (x y : List Char) (ys : List (List Char)) :
    lastD (x :: y :: ys) = lastD (y :: ys) := rfl

theorem lastD_cons_ne (x : List Char) (xs : List (List Char)) (h : xs ≠ []) :
    lastD (x :: xs) = lastD xs := by
  cases xs with
  | nil => exact absurd rfl h
  | cons y ys => rfl

theorem lastD_append (xs ys : List (List Char)) (h : ys ≠ []) :
    lastD (xs ++ ys) = lastD ys := by
  induction xs with
  | nil => rfl
  | cons x xs ih =>
    rw [List.cons_append, lastD_cons_ne]
    · exact ih
    · intro hx
      rcases List.append_eq_nil.mp hx with ⟨_, h2⟩
      exact h h2

theorem dropLast_append_ne {α : Type} (xs ys : List α) (h : ys ≠ []) :
    (xs ++ ys).dropLast = xs ++ ys.dropLast := by
  induction xs with
  | nil => rfl
  | cons x xs ih =>
    rw [List.cons_append, List.dropLast_cons_of_ne_nil, ih, List.cons_append]
    intro hx
    rcases List.append_eq_nil.mp hx with ⟨_, h2⟩
    exact h h2

theorem splitNl_cons_newline (rest : List Char) :
    splitNl ('\n' :: rest) = [] :: splitNl rest := by
  simp [splitNl]

theorem splitNl_cons_ne (c : Char) (rest : List Char) (h : c ≠ '\n') :
    splitNl (c :: rest) = consSeg c (splitNl rest) := by
  simp [splitNl, h]

/-- The key composition law: splitting `a ++ b` yields the complete segments
of `a` followed by the split of the carry-over of `a` prepended to `b`. -/
theorem splitNl_append (a b : List Char) :
    splitNl (a ++ b) = (splitNl a).dropLast ++ splitNl (lastD (splitNl a) ++ b) := by
  induction a with
  | nil => rfl
  | cons c a ih =>
    by_cases h : c = '\n'
    · subst h
      rw [List.cons_append, splitNl_cons_newline, splitNl_cons_newline, ih,
        List.dropLast_cons_of_ne_nil (splitNl_ne_nil a),
        lastD_cons_ne _ _ (splitNl_ne_nil a), List.cons_append]
    · rw [List.cons_append, splitNl_cons_ne _ _ h, splitNl_cons_ne _ _ h]
      cases hsa : splitNl a with
      | nil => exact absurd hsa (splitNl_ne_nil a)
      | cons x xs =>
        cases xs with
        | nil =>
          simp only [consSeg, List.dropLast_single, List.nil_append, lastD]
          rw [ih, hsa]
          simp only [List.dropLast_single, List.nil_append, lastD, List.cons_append]
          rw [splitNl_cons_ne _ _ h]
          rfl
        | cons y ys =>
          simp only [consSeg, List.dropLast_cons₂, lastD_cons_cons, List.cons_append]
          rw [ih, hsa]
          rw [List.dropLast_cons_of_ne_nil (by simp : y :: ys ≠ ([] : List (List Char))),
            lastD_cons_ne _ _ (by simp : y :: ys ≠ ([] : List (List Char))),
            List.cons_append]

theorem splitNl_no_newline (s : List Char) (h : '\n' ∉ s) : splitNl s = [s] := by
  induction s with
  | nil => rfl
  | cons c rest ih =>
    have hc : c ≠ '\n' := fun he => h (he ▸ List.mem_cons_self c rest)
    have hrest : '\n' ∉ rest := fun hm => h (List.mem_cons_of_mem c hm)
    rw [splitNl_cons_ne _ _ hc, ih hrest]
    rfl

theorem no_newline_lastD_splitNl (s : List Char) : '\n' ∉ lastD (splitNl s) := by
  induction s with
  | nil => simp [splitNl, lastD]
  | cons c rest ih =>
    by_cases h : c = '\n'
    · subst h
      rw [splitNl_cons_newline, lastD_cons_ne _ _ (splitNl_ne_nil rest)]
      exact ih
    · rw [splitNl_cons_ne _ _ h]
      cases hsr : splitNl rest with
      | nil => exact absurd hsr (splitNl_ne_nil rest)
      | cons x xs =>
        cases xs with
        | nil =>
          simp only [consSeg, lastD]
          rw [hsr] at ih
          simp only [lastD] at ih
          intro hm
          rcases List.mem_cons.mp hm with h1 | h1
          · exact h h1.symm
          · exact ih h1
        | cons y ys =>
          simp only [consSeg, lastD_cons_cons]
          rw [hsr, lastD_cons_cons] at ih
          exact ih

/-!  Classification of a line by the record it decodes to. -/

/-- The effective content of a line that decodes to an `item` record whose
branch will run (same pipeline as `procLine`). -/
def lineItemContent (l : String) : Option String :=
  let t := jsTrim l
  if t = "" then none
  else
    match parseJson t with
    | some d =>
      match d.getField "type" with
      | some (Json.str ty) => if ty = "item" then effContent d else none
      | _ => none
    | none => none

/-- Does the line fire the `<end>...</end>` terminator branch?  This is a
property of the line alone, not of the assembler state. -/
def lineTriggersEnd (l : String) : Bool :=
  match lineItemContent l with
  | some content =>
    if content = "<response>" then false
    else if content = "</response>" then false
    else hasSub content "<end>" && hasSub content "</end>"
  | none => false

/-- An `item` line whose content is plain: no tag markers, no terminator.
Such a line, in the default (tagless) mode, appends its content verbatim. -/
def plainItemLine (l : String) : Option String :=
  match lineItemContent l with
  | some content =>
    if content = "<response>" then none
    else if content = "</response>" then none
    else if hasSub content "<end>" && hasSub content "</end>" then none
    else some content
  | none => none

theorem procLine_dispatch (c : Core) (l : String) :
    (∀ content, lineItemContent l = some content → procLine c l = itemStep c content) ∧
    (lineItemContent l = none → (procLine c l).2 ≠ Signal.brk) := by
  unfold procLine lineItemContent
  by_cases ht : jsTrim l = ""
  · simp [ht]
  · simp only [if_neg ht]
    cases hp : parseJson (jsTrim l) with
    | none => simp [hp]
    | some d =>
      simp only [hp]
      cases hty : d.getField "type" with
      | none => simp [hty]
      | some v =>
        try simp only [hty]
        cases v with
        | null => simp
        | bool b => simp
        | num raw => simp
        | arr elems => simp
        | obj fields => simp
        | str ty =>
          by_cases hit : ty = "item"
          · subst hit
            simp only [if_pos rfl]
            cases he : effContent d with
            | none => simp [he]
            | some content => simp [he]
          · simp only [if_neg hit]
            refine ⟨fun content hcon => absurd hcon (by simp), fun _ => ?_⟩
            split
            · simp
            · split
              · split <;> simp
              · simp

theorem procLine_no_brk (c : Core) (l : String) (h : lineTriggersEnd l = false) :
    (procLine c l).2 ≠ Signal.brk := by
  cases hic : lineItemContent l with
  | none => exact (procLine_dispatch c l).2 hic
  | some content =>
    rw [(procLine_dispatch c l).1 content hic]
    have h3 : (if content = "<response>" then false
        else if content = "</response>" then false
        else hasSub content "<end>" && hasSub content "</end>") = false := by
      simpa only [lineTriggersEnd, hic] using h
    unfold itemStep
    by_cases h1 : content = "<response>"
    · simp [h1]
    · by_cases h2 : content = "</response>"
      · simp [h1, h2]
      · rw [if_neg h1, if_neg h2] at h3 ⊢
        rw [h3]
        simp only [Bool.false_eq_true, if_false]
        split
        · simp
        · split
          · simp
          · split <;> simp

theorem feedLines_append (c : Core) (xs ys : List String)
    (h : ∀ l ∈ xs, lineTriggersEnd l = false) :
    feedLines c (xs ++ ys) = feedLines (feedLines c xs) ys := by
  induction xs generalizing c with
  | nil => rfl
  | cons l xs ih =>
    have hl : lineTriggersEnd l = false := h l (List.mem_cons_self l xs)
    have hrest : ∀ a ∈ xs, lineTriggersEnd a = false :=
      fun a ha => h a (List.mem_cons_of_mem l ha)
    by_cases hr : c.returned
    · rw [feedLines_returned c hr, feedLines_returned c hr, feedLines_returned c hr]
    · rw [List.cons_append]
      show feedLines c (l :: (xs ++ ys)) = feedLines (feedLines c (l :: xs)) ys
      rcases hsig : procLine c l with ⟨c2, sig⟩
      cases sig with
      | next =>
        simp only [feedLines, if_neg hr, hsig]
        exact ih c2 hrest
      | brk => exact absurd (by rw [hsig]) (procLine_no_brk c l hl)
      | ret =>
        simp only [feedLines, if_neg hr, hsig]
        rw [feedLines_returned _ rfl]

theorem feedChunk_returned (s : St) (h : s.core.returned = true) (a : String) :
    feedChunk s a = s := by
  unfold feedChunk
  rw [if_pos h]

theorem segStrs_append (xs ys : List (List Char)) :
    segStrs (xs ++ ys) = segStrs xs ++ segStrs ys := by
  unfold segStrs
  exact List.map_append _ _ _

theorem foldl_feedChunk_returned (chunks : List String) (s : St)
    (h : s.core.returned = true) : chunks.foldl feedChunk s = s := by
  induction chunks with
  | nil => rfl
  | cons a rest ih => rw [List.foldl_cons, feedChunk_returned s h a, ih]

/-- Normal form of the chunk-fold: feeding any chunking equals processing the
complete lines of the concatenated text, with the trailing segment as the
final carry-over buffer, provided no line fires the terminator branch (whose
`break` is the only chunk-boundary-sensitive control path). -/
theorem foldFeed_norm (chunks : List String) :
    ∀ s : St, '\n' ∉ s.buffer → s.core.returned = false →
      (∀ l ∈ segStrs (splitNl (s.buffer ++ joinChunks chunks)), lineTriggersEnd l = false) →
      (chunks.foldl feedChunk s).core
          = feedLines s.core (segStrs (splitNl (s.buffer ++ joinChunks chunks)).dropLast)
        ∧ ((chunks.foldl feedChunk s).core.returned = false →
            (chunks.foldl feedChunk s).buffer
              = lastD (splitNl (s.buffer ++ joinChunks chunks))) := by
  induction chunks with
  | nil =>
    intro s hnl hr _
    have hsp : splitNl (s.buffer ++ joinChunks []) = [s.buffer] := by
      show splitNl (s.buffer ++ []) = [s.buffer]
      rw [List.append_nil]
      exact splitNl_no_newline _ hnl
    refine ⟨?_, fun _ => ?_⟩
    · rw [hsp]; rfl
    · rw [hsp]; rfl
  | cons a rest ih =>
    intro s hnl hr h
    have hjoin : s.buffer ++ joinChunks (a :: rest)
        = (s.buffer ++ a.data) ++ joinChunks rest := by
      show s.buffer ++ (a.data ++ joinChunks rest) = (s.buffer ++ a.data) ++ joinChunks rest
      rw [List.append_assoc]
    have hsplit : splitNl (s.buffer ++ joinChunks (a :: rest))
        = (splitNl (s.buffer ++ a.data)).dropLast
          ++ splitNl (lastD (splitNl (s.buffer ++ a.data)) ++ joinChunks rest) := by
      rw [hjoin, splitNl_append]
    have hfc : feedChunk s a
        = ⟨feedLines s.core (segStrs (splitNl (s.buffer ++ a.data)).dropLast),
           lastD (splitNl (s.buffer ++ a.data))⟩ := by
      unfold feedChunk
      rw [if_neg (by simp [hr])]
    have hmem1 : ∀ l ∈ segStrs (splitNl (s.buffer ++ a.data)).dropLast,
        lineTriggersEnd l = false := by
      intro l hl
      apply h
      rw [hsplit, segStrs_append]
      exact List.mem_append_left _ hl
    have hmem2 : ∀ l ∈ segStrs (splitNl (lastD (splitNl (s.buffer ++ a.data))
        ++ joinChunks rest)), lineTriggersEnd l = false := by
      intro l hl
      apply h
      rw [hsplit, segStrs_append]
      exact List.mem_append_right _ hl
    have hfold : (a :: rest).foldl feedChunk s
        = rest.foldl feedChunk
            ⟨feedLines s.core (segStrs (splitNl (s.buffer ++ a.data)).dropLast),
             lastD (splitNl (s.buffer ++ a.data))⟩ := by
      rw [List.foldl_cons, hfc]
    have hcore : feedLines s.core (segStrs (splitNl (s.buffer ++ joinChunks (a :: rest))).dropLast)
        = feedLines (feedLines s.core (segStrs (splitNl (s.buffer ++ a.data)).dropLast))
            (segStrs (splitNl (lastD (splitNl (s.buffer ++ a.data)) ++ joinChunks rest)).dropLast) := by
      rw [hsplit, dropLast_append_ne _ _ (splitNl_ne_nil _), segStrs_append,
        feedLines_append _ _ _ hmem1]
    by_cases hret :
        (feedLines s.core (segStrs (splitNl (s.buffer ++ a.data)).dropLast)).returned = true
    · have hrest := foldl_feedChunk_returned rest
        ⟨feedLines s.core (segStrs (splitNl (s.buffer ++ a.data)).dropLast),
         lastD (splitNl (s.buffer ++ a.data))⟩ hret
      refine ⟨?_, fun hco => ?_⟩
      · rw [hfold, hrest, hcore, feedLines_returned _ hret]
      · rw [hfold, hrest] at hco
        have hco2 :
            (feedLines s.core (segStrs (splitNl (s.buffer ++ a.data)).dropLast)).returned
              = false := hco
        rw [hret] at hco2
        exact Bool.noConfusion hco2
    · have hret1 :
          (feedLines s.core (segStrs (splitNl (s.buffer ++ a.data)).dropLast)).returned
            = false := by
        revert hret
        cases (feedLines s.core (segStrs (splitNl (s.buffer ++ a.data)).dropLast)).returned <;>
          simp
      have hih := ih
        ⟨feedLines s.core (segStrs (splitNl (s.buffer ++ a.data)).dropLast),
         lastD (splitNl (s.buffer ++ a.data))⟩
        (no_newline_lastD_splitNl _) hret1 hmem2
      refine ⟨?_, fun hco => ?_⟩
      · rw [hfold, hih.1, hcore]
      · rw [hfold] at hco ⊢
        rw [hih.2 hco, hsplit, lastD_append _ _ (splitNl_ne_nil _)]

/-- Result of processing the whole response text in one piece. -/
def runFull (full : List Char) : RunResult :=
  finish ⟨feedLines initCore (segStrs (splitNl full).dropLast), lastD (splitNl full)⟩

theorem runChunks_eq_runFull (chunks : List String)
    (h : ∀ l ∈ segStrs (splitNl (joinChunks chunks)), lineTriggersEnd l = false) :
    runChunks chunks = runFull (joinChunks chunks) := by
  have hn := foldFeed_norm chunks initSt (by simp [initSt]) rfl
    (by simpa [initSt] using h)
  have hcore : (chunks.foldl feedChunk initSt).core
      = feedLines initCore (segStrs (splitNl (joinChunks chunks)).dropLast) := by
    simpa [initSt] using hn.1
  by_cases hret : (chunks.foldl feedChunk initSt).core.returned = true
  · have hret2 :
        (feedLines initCore (segStrs (splitNl (joinChunks chunks)).dropLast)).returned
          = true := by
      rw [← hcore]; exact hret
    unfold runChunks runFull finish
    rw [if_pos hret, if_pos hret2, hcore]
  · have hret1 : (chunks.foldl feedChunk initSt).core.returned = false := by
      revert hret
      cases (chunks.foldl feedChunk initSt).core.returned <;> simp
    have hret2 :
        (feedLines initCore (segStrs (splitNl (joinChunks chunks)).dropLast)).returned
          = false := by
      rw [← hcore]; exact hret1
    have hbuf : (chunks.foldl feedChunk initSt).buffer
        = lastD (splitNl (joinChunks chunks)) := by
      have := hn.2 hret1
      simpa [initSt] using this
    unfold runChunks runFull finish
    rw [if_neg (by simp [hret1]), if_neg (by simp [hret2]), hcore, hbuf]

/-- The conditions packed into `plainItemLine`. -/
theorem plainItemLine_spec (l content : String) (h : plainItemLine l = some content) :
    lineItemContent l = some content ∧ content ≠ "<response>" ∧ content ≠ "</response>" ∧
    (hasSub content "<end>" && hasSub content "</end>") = false := by
  cases hic : lineItemContent l with
  | none =>
    simp only [plainItemLine, hic] at h
    exact Option.noConfusion h
  | some c0 =>
    simp only [plainItemLine, hic] at h
    by_cases h1 : c0 = "<response>"
    · rw [if_pos h1] at h; exact Option.noConfusion h
    · rw [if_neg h1] at h
      by_cases h2 : c0 = "</response>"
      · rw [if_pos h2] at h; exact Option.noConfusion h
      · rw [if_neg h2] at h
        by_cases h3 : (hasSub c0 "<end>" && hasSub c0 "</end>") = true
        · rw [if_pos h3] at h; exact Option.noConfusion h
        · rw [if_neg h3] at h
          cases h
          refine ⟨rfl, h1, h2, ?_⟩
          revert h3
          cases hasSub content "<end>" && hasSub content "</end>" <;> simp

/-- In the default mode (no tag seen, not inside a tag) a plain `item` line
appends its content verbatim to the pending queue. -/
theorem procLine_plain (c : Core) (l content : String)
    (h : plainItemLine l = some content)
    (htag : c.hasSeenTags = false) (hin : c.inResponseTag = false) :
    procLine c l
      = ({ c with streamBuffer := c.streamBuffer ++ content.data }, Signal.next) := by
  obtain ⟨hic, h1, h2, h3⟩ := plainItemLine_spec l content h
  rw [(procLine_dispatch c l).1 content hic]
  unfold itemStep
  rw [if_neg h1, if_neg h2, h3]
  simp [hin, htag]

theorem feedLines_plain (lines : List String) :
    ∀ c : Core, (∀ l ∈ lines, (plainItemLine l).isSome) →
      c.hasSeenTags = false → c.inResponseTag = false → c.returned = false →
      feedLines c lines
        = { c with streamBuffer := c.streamBuffer
              ++ (((lines.filterMap plainItemLine).map String.data).flatten) } := by
  induction lines with
  | nil =>
    intro c _ _ _ _
    simp [feedLines]
  | cons l ls ih =>
    intro c hall htag hin hret
    have hl : (plainItemLine l).isSome := hall l (List.mem_cons_self l ls)
    obtain ⟨content, hc⟩ := Option.isSome_iff_exists.mp hl
    have hstep := procLine_plain c l content hc htag hin
    have hrest : ∀ a ∈ ls, (plainItemLine a).isSome :=
      fun a ha => hall a (List.mem_cons_of_mem l ha)
    have hretp : ¬(c.returned = true) := by simp [hret]
    simp only [feedLines, if_neg hretp, hstep]
    rw [ih { c with streamBuffer := c.streamBuffer ++ content.data } hrest htag hin hret]
    simp [List.filterMap_cons, hc, List.append_assoc]

theorem finish_plain_state (X : List Char) :
    finish ⟨{ initCore with streamBuffer := initCore.streamBuffer ++ X }, []⟩
      = { visible := String.mk X, isLoading := false, hangs := false } := by
  unfold finish
  rw [if_neg (by simp [initCore])]
  have hres : processResidual
      { initCore with streamBuffer := initCore.streamBuffer ++ X } []
      = { initCore with streamBuffer := initCore.streamBuffer ++ X } := rfl
  rw [hres]
  unfold finishTail
  simp [initCore]

/-!  Claim theorems. -/

/-- C1.  The claim says that once a `<end>...</end>` terminator envelope is
processed, all subsequent envelopes of the reply are ignored and the final
visible text is the trimmed substring between the first terminator's markers.
In the code the `break` of the terminator branch (Chat.tsx:341) only exits
the per-chunk `for` loop, so envelopes arriving in later chunks are still
processed: here a second terminator envelope in a following chunk is
processed and its content `Other` — not the first terminator's `Done` —
becomes the final visible text. -/
theorem C1_post_terminator_envelopes_still_processed :
    (runChunks ["\x7b\"type\":\"item\",\"content\":\"<end>Done</end>\"\x7d\n"]).visible
      = "Done" ∧
    (runChunks
      ["\x7b\"type\":\"item\",\"content\":\"<end>Done</end>\"\x7d\n",
       "\x7b\"type\":\"item\",\"content\":\"<end>Other</end>\"\x7d\n"]).visible
      = "Other" := by
  exact ⟨rfl, rfl⟩

/-- C2.  The claim says that when the first content of the stream begins with
`[`, per-line decoding is skipped and at end of stream the entire accumulated
buffer is parsed as one JSON array.  The flag `isJsonArray` set by that
first-chunk check (Chat.tsx:272-275) is never read, per-line decoding always
proceeds, and at end of stream only the residue after the last newline is
parsed.  For this payload — a well-formed JSON array over two chunks whose
first content begins with `[`, containing one wrapped `item` envelope with
content `Hi` — the code decodes nothing at all: the line `[` fails to parse
and is dropped, and the residue is not a parseable value, so the final
visible text is empty instead of `Hi`. -/
theorem C2_buffered_array_payload_not_decoded :
    parseJson (jsTrim (String.mk (joinChunks
        ["[\n", "\x7b\"json\":\x7b\"type\":\"item\",\"content\":\"Hi\"\x7d\x7d]"])))
      = some (Json.arr [Json.obj [("json",
          Json.obj [("type", Json.str "item"), ("content", Json.str "Hi")])]]) ∧
    (runChunks
        ["[\n", "\x7b\"json\":\x7b\"type\":\"item\",\"content\":\"Hi\"\x7d\x7d]"]).visible
      = "" := by
  exact ⟨rfl, rfl⟩

/-- C3 counterexample.  The claim asserts that for every record sequence,
absent a terminator, the final visible text equals the in-order concatenation
of all `item` contents.  A stream consisting of one `replace` record refutes
it: there is no `item` record at all — the concatenation the claim names is
empty — yet the final visible text is the `replace` content `X`. -/
theorem C3_counterexample_replace_record :
    (runChunks ["\x7b\"type\":\"replace\",\"content\":\"X\"\x7d\n"]).visible = "X" ∧
    (segStrs (splitNl (joinChunks
        ["\x7b\"type\":\"replace\",\"content\":\"X\"\x7d\n"]))).filterMap lineItemContent
      = [] ∧
    ("X" : String) ≠ "" :=
  ⟨rfl, rfl, by decide⟩

/-- C3 (amended).  For every response text containing no `<end>...</end>`
terminator record and any two chunkings of it, the final visible text (and
the loading / hang outcome) is identical — reveal is independent of chunking
granularity; and when moreover every complete line is an `item` record with
plain content (no tag markers) and the text ends with a newline, that final
visible text is exactly the in-order concatenation of the item contents. -/
theorem C3_chunking_invariance (c1 c2 : List String)
    (hjoin : joinChunks c1 = joinChunks c2)
    (hterm : ∀ l ∈ segStrs (splitNl (joinChunks c1)), lineTriggersEnd l = false) :
    runChunks c1 = runChunks c2 ∧
    ((∀ l ∈ segStrs (splitNl (joinChunks c1)).dropLast, (plainItemLine l).isSome) →
      lastD (splitNl (joinChunks c1)) = [] →
      (runChunks c1).visible
        = String.mk ((((segStrs (splitNl (joinChunks c1)).dropLast).filterMap
            plainItemLine).map String.data).flatten)) := by
  have h1 := runChunks_eq_runFull c1 hterm
  have h2 := runChunks_eq_runFull c2 (by rw [← hjoin]; exact hterm)
  constructor
  · rw [h1, h2, hjoin]
  · intro hplain hlast
    rw [h1]
    unfold runFull
    rw [feedLines_plain _ initCore hplain rfl rfl rfl, hlast, finish_plain_state]

/-- C3 witness: splitting the same two-record text mid-record or not yields
the same outcome, and the final text is the concatenation `Hello`. -/
theorem C3_chunking_invariance_witness :
    runChunks ["\x7b\"type\":\"item\",\"con",
        "tent\":\"Hel\"\x7d\n\x7b\"type\":\"item\",\"content\":\"lo\"\x7d\n"]
      = runChunks
        ["\x7b\"type\":\"item\",\"content\":\"Hel\"\x7d\n\x7b\"type\":\"item\",\"content\":\"lo\"\x7d\n"] ∧
    (runChunks ["\x7b\"type\":\"item\",\"con",
        "tent\":\"Hel\"\x7d\n\x7b\"type\":\"item\",\"content\":\"lo\"\x7d\n"]).visible
      = "Hello" := by
  have h := C3_chunking_invariance
    ["\x7b\"type\":\"item\",\"con",
     "tent\":\"Hel\"\x7d\n\x7b\"type\":\"item\",\"content\":\"lo\"\x7d\n"]
    ["\x7b\"type\":\"item\",\"content\":\"Hel\"\x7d\n\x7b\"type\":\"item\",\"content\":\"lo\"\x7d\n"]
    rfl (by decide)
  refine ⟨h.1, ?_⟩
  rw [h.2 (by decide) rfl]
  rfl

/-- C4.  A line that fails to parse as JSON is dropped and decoding
continues: processing a malformed line followed by any remaining lines gives
exactly the state obtained by processing the remaining lines alone, so valid
lines after a malformed one are still decoded.  The embedding is total, which
reflects that the per-line `try`/`catch` (Chat.tsx:289-392) never lets a
decode error escape to the caller. -/
theorem C4_malformed_line_skipped (c : Core) (l : String) (ls : List String)
    (hp : parseJson (jsTrim l) = none) :
    feedLines c (l :: ls) = feedLines c ls := by
  cases hr : c.returned with
  | true => rw [feedLines_returned c hr, feedLines_returned c hr]
  | false =>
    simp only [feedLines, hr, Bool.false_eq_true, if_false,
      procLine_parse_none c l hp]

/-- C4 witness: the malformed line `not json` is skipped and the valid
`item` line after it is still decoded. -/
theorem C4_malformed_line_skipped_witness :
    parseJson (jsTrim "not json") = none ∧
    feedLines initCore ["not json", "\x7b\"type\":\"item\",\"content\":\"Hello\"\x7d"]
      = feedLines initCore ["\x7b\"type\":\"item\",\"content\":\"Hello\"\x7d"] :=
  ⟨rfl, C4_malformed_line_skipped initCore "not json" _ rfl⟩

/-- C5.  An envelope of kind `end` while no tag has ever been seen stops the
reveal, flushes the queue (so the reply finalizes with everything streamed so
far) and returns from the handler; if a tag has been seen it is ignored and
processing continues (Chat.tsx:364-386).  The concrete stream of the claim,
`item` `Hello` then `end`, yields final visible text `Hello`. -/
theorem C5_end_kind_behavior (c : Core) (l : String) (d : Json)
    (hp : parseJson (jsTrim l) = some d)
    (hty : d.getField "type" = some (Json.str "end")) :
    (c.hasSeenTags = false →
      procLine c l = (stopSmoothStream c, Signal.ret) ∧
      (stopSmoothStream c).currentContent
        = c.currentContent ++ String.mk c.streamBuffer) ∧
    (c.hasSeenTags = true → procLine c l = (c, Signal.next)) ∧
    (runChunks
        ["\x7b\"type\":\"item\",\"content\":\"Hello\"\x7d\n\x7b\"type\":\"end\"\x7d\n"]).visible
      = "Hello" := by
  have ht : jsTrim l ≠ "" := by
    intro h
    rw [h, parseJson_empty] at hp
    exact Option.noConfusion hp
  refine ⟨?_, ?_, rfl⟩
  · intro hs
    unfold procLine
    simp [ht, hp, hty, hs, stopSmoothStream]
  · intro hs
    unfold procLine
    simp [ht, hp, hty, hs]

/-- C5 witness: the `end` record terminates a tagless reply at a concrete
state, and the Hello stream ends with visible text Hello. -/
theorem C5_end_kind_behavior_witness :
    procLine { initCore with currentContent := "Hel", streamBuffer := ['l', 'o'] }
        "\x7b\"type\":\"end\"\x7d"
      = (stopSmoothStream
          { initCore with currentContent := "Hel", streamBuffer := ['l', 'o'] },
         Signal.ret) :=
  ((C5_end_kind_behavior
      { initCore with currentContent := "Hel", streamBuffer := ['l', 'o'] }
      "\x7b\"type\":\"end\"\x7d"
      (Json.obj [("type", Json.str "end")]) rfl rfl).1 rfl).1

/-- C6.  An envelope of kind `final` or `replace` arriving at any state
immediately stops the gradual reveal, empties the pending-character queue and
force-sets the visible content to the envelope's content, discarding anything
previously streamed (Chat.tsx:354-363). -/
theorem C6_final_replace_overrides (c : Core) (l : String) (d : Json)
    (ty s : String)
    (hp : parseJson (jsTrim l) = some d)
    (hty : d.getField "type" = some (Json.str ty))
    (hor : ty = "final" ∨ ty = "replace")
    (hc : d.getField "content" = some (Json.str s)) :
    procLine c l
      = ({ c with currentContent := s, streamBuffer := [], intervalActive := false },
         Signal.next) := by
  have ht : jsTrim l ≠ "" := by
    intro h
    rw [h, parseJson_empty] at hp
    exact Option.noConfusion hp
  unfold procLine
  rcases hor with h | h <;>
    subst h <;>
    simp [ht, hp, hty, stopSmoothStream, contentStrD, hc]

/-- C6 witness: a `replace` record at a mid-stream state with queued
characters force-sets the content. -/
theorem C6_final_replace_overrides_witness :
    procLine { initCore with currentContent := "part", streamBuffer := ['i', 'a', 'l'] }
        "\x7b\"type\":\"replace\",\"content\":\"Corrected text\"\x7d"
      = ({ initCore with currentContent := "Corrected text", streamBuffer := [], intervalActive := false },
         Signal.next) := by
  have h := C6_final_replace_overrides
    { initCore with currentContent := "part", streamBuffer := ['i', 'a', 'l'] }
    "\x7b\"type\":\"replace\",\"content\":\"Corrected text\"\x7d"
    (Json.obj [("type", Json.str "replace"), ("content", Json.str "Corrected text")])
    "replace" "Corrected text" rfl rfl (Or.inr rfl) rfl
  simpa using h

/-- C7.  Any observed failure of the request or stream — network error,
non-success status, absent readable body, or a read failure mid-stream —
replaces the partially streamed assistant message with the fixed system-error
message (Chat.tsx:454-461); and the loading indicator is stopped on every
exit path of the handler, error or not (the `finally` at Chat.tsx:462-465),
the only runs still loading being those that never exit because the
buffer-drain wait loop spins forever. -/
theorem C7_error_path (prev : List MessageEntry) (user : String)
    (o : FetchOutcome) :
    (isFailure o = true →
      (sendMessageModel prev user o).transcript
        = prev ++ [⟨Role.user, user⟩, ⟨Role.error, errorText⟩] ∧
      (sendMessageModel prev user o).isLoading = false) ∧
    ((sendMessageModel prev user o).hangs = false →
      (sendMessageModel prev user o).isLoading = false) := by
  cases o with
  | netError => exact ⟨fun _ => ⟨rfl, rfl⟩, fun _ => rfl⟩
  | httpError => exact ⟨fun _ => ⟨rfl, rfl⟩, fun _ => rfl⟩
  | noBody => exact ⟨fun _ => ⟨rfl, rfl⟩, fun _ => rfl⟩
  | stream chunks readFails =>
    have hs : isFailure (FetchOutcome.stream chunks readFails)
        = (readFails && !(chunks.foldl feedChunk initSt).core.returned) := rfl
    constructor
    · intro hf
      rw [hs] at hf
      rw [sendMessageModel_stream, if_pos hf]
      exact ⟨rfl, rfl⟩
    · intro hh
      rw [sendMessageModel_stream] at hh ⊢
      by_cases hcond :
          (readFails && !(chunks.foldl feedChunk initSt).core.returned) = true
      · rw [if_pos hcond]
      · rw [if_neg hcond] at hh ⊢
        exact finish_no_hang_not_loading _ hh

/-- C7 witness: a network error with an empty transcript yields the fixed
system-error entry and a cleared loading state. -/
theorem C7_error_path_witness :
    (sendMessageModel [] "hi" FetchOutcome.netError).transcript
      = [⟨Role.user, "hi"⟩, ⟨Role.error, errorText⟩] ∧
    (sendMessageModel [] "hi" FetchOutcome.netError).isLoading = false := by
  have h := (C7_error_path [] "hi" FetchOutcome.netError).1 rfl
  simpa using h

/-- C8.  Stopping the reveal timer flushes the whole pending-character queue
into the accumulated content, in order and atomically: afterwards the queue
is empty and the content is the previous content followed by exactly the
previously queued characters, with every other field untouched — no
character is dropped by stopping (Chat.tsx:149-159). -/
theorem C8_stop_flushes_queue (c : Core) :
    (stopSmoothStream c).streamBuffer = [] ∧
    (stopSmoothStream c).currentContent
      = c.currentContent ++ String.mk c.streamBuffer ∧
    (stopSmoothStream c).intervalActive = false ∧
    (stopSmoothStream c).inResponseTag = c.inResponseTag ∧
    (stopSmoothStream c).responseContent = c.responseContent ∧
    (stopSmoothStream c).hasSeenTags = c.hasSeenTags ∧
    (stopSmoothStream c).endFinal = c.endFinal ∧
    (stopSmoothStream c).returned = c.returned :=
  ⟨rfl, rfl, rfl, rfl, rfl, rfl, rfl, rfl⟩

/-- C9.  In the batch-array fallback (Chat.tsx:410-425) elements are not
processed like newline-delimited records: an `item` element's content is
appended verbatim — no tag rules, no `output` unwrapping, whatever the
string is — a bare or `json`-wrapped element alike; an element whose kind is
none of `item`, `replace`, `final` (in particular kind `end`) leaves the
state unchanged; `replace`/`final` elements force-set the content; and the
tag record `<response>` is treated differently by the two paths. -/
theorem C9_array_elements_not_like_records :
    (∀ (c : Core) (s : String), s ≠ "" →
      processArray c [Json.obj [("type", Json.str "item"), ("content", Json.str s)]]
        = { c with streamBuffer := c.streamBuffer ++ s.data } ∧
      processArray c
          [Json.obj [("json",
            Json.obj [("type", Json.str "item"), ("content", Json.str s)])]]
        = { c with streamBuffer := c.streamBuffer ++ s.data }) ∧
    (∀ (c : Core) (ty : String), ty ≠ "item" → ty ≠ "replace" → ty ≠ "final" →
      processArray c [Json.obj [("type", Json.str ty)]] = c) ∧
    (∀ (c : Core) (s : String),
      processArray c [Json.obj [("type", Json.str "replace"), ("content", Json.str s)]]
        = { stopSmoothStream c with currentContent := s }) ∧
    processArray initCore
        [Json.obj [("type", Json.str "item"), ("content", Json.str "<response>")]]
      ≠ (procLine initCore "\x7b\"type\":\"item\",\"content\":\"<response>\"\x7d").1 := by
  refine ⟨?_, ?_, ?_, ?_⟩
  · intro c s hs
    constructor <;>
      simp [processArray, arrElemData, Json.getField, getF, jsTruthy, hs]
  · intro c ty h1 h2 h3
    simp [processArray, arrElemData, Json.getField, getF, h1, h2, h3]
  · intro c s
    simp [processArray, arrElemData, Json.getField, getF, contentStrD]
  · intro h
    have := congrArg Core.hasSeenTags h
    revert this
    decide

/-- C9 witness: an `end` element of the batch array is ignored, and an
`item` element appends its content verbatim. -/
theorem C9_array_elements_not_like_records_witness :
    processArray initCore [Json.obj [("type", Json.str "end")]] = initCore ∧
    processArray initCore
        [Json.obj [("type", Json.str "item"), ("content", Json.str "Hi")]]
      = { initCore with streamBuffer := "Hi".data } := by
  refine ⟨?_, ?_⟩
  · exact C9_array_elements_not_like_records.2.1 initCore "end"
      (by decide) (by decide) (by decide)
  · have h := (C9_array_elements_not_like_records.1 initCore "Hi" (by decide)).1
    simpa using h

/-- C10.  An `item` envelope whose content is the empty string or absent is
ignored entirely: the truthiness guard at Chat.tsx:293 fails, no branch
applies, and the whole state — tag flags, queue, everything — is unchanged. -/
theorem C10_empty_item_ignored (c : Core) (l : String) (d : Json)
    (hp : parseJson (jsTrim l) = some d)
    (hty : d.getField "type" = some (Json.str "item"))
    (hc : d.getField "content" = none ∨ d.getField "content" = some (Json.str "")) :
    procLine c l = (c, Signal.next) := by
  have ht : jsTrim l ≠ "" := by
    intro h
    rw [h, parseJson_empty] at hp
    exact Option.noConfusion hp
  unfold procLine
  rcases hc with h | h <;> simp [ht, hp, hty, effContent, h]

/-- C10 witness: an `item` record with empty content, and one with no
content field, leave a mid-stream state untouched. -/
theorem C10_empty_item_ignored_witness :
    procLine { initCore with streamBuffer := ['a'] }
        "\x7b\"type\":\"item\",\"content\":\"\"\x7d"
      = ({ initCore with streamBuffer := ['a'] }, Signal.next) ∧
    procLine { initCore with streamBuffer := ['a'] } "\x7b\"type\":\"item\"\x7d"
      = ({ initCore with streamBuffer := ['a'] }, Signal.next) :=
  ⟨C10_empty_item_ignored _ _ (Json.obj [("type", Json.str "item"), ("content", Json.str "")])
      rfl rfl (Or.inr rfl),
   C10_empty_item_ignored _ _ (Json.obj [("type", Json.str "item")])
      rfl rfl (Or.inl rfl)⟩

end Kelsenia
